import Mathlib

/-!
# MulticopterSim: the flight manager's per-cycle protocol

A shallow embedding of `Source/MainModule/FlightManager.hpp` (class `FFlightManager`).
Its consumer `Vehicle` (`Source/MainModule/Vehicle.hpp`) reads the motor values into
`float _motorvals[FFlightManager::MAX_MOTORS]`, a destination of `MAX_MOTORS` cells.

* Time stamps are `double` seconds in the source; they are embedded as rationals, so
  `currentTime - _previousTime` is exact subtraction.
* Motor values are only ever moved around by this class, never computed with, so the
  embedding is parametric in the type `α` of the worker-side (`double`) values and the
  type `β` of the consumer-side (`float`) values, with the implicit `double → float`
  conversion of `motorvals[j] = _motorvals[j]` as a parameter `narrow : α → β`.
* The `Dynamics` object behind `_dynamics` and the subclass that overrides the pure
  virtual `getMotors` are collaborators whose code is not part of the class: they are
  parameters (`Collaborators`), with their own state passed explicitly.
-/

/-- One call made by the flight manager on a collaborator: `Dynamics::setMotors` with the
values it was handed, `Dynamics::update` with its `dt`, or the virtual `getMotors` with
its time argument and the contents it left in the output array. -/
inductive Call (α : Type) where
  | setMotors (motorvals : List α)
  | update (dt : ℚ)
  | getMotors (time : ℚ) (motorvals : List α)
  deriving DecidableEq

/-- The code the class calls but does not define. `D` is the state of the `Dynamics`
object, `C` the private state of the subclass implementing `getMotors`.
`getMotors self dynamics time motorvals` receives the current contents of the output
array and returns the new subclass state, the dynamics (reachable through the protected
`_dynamics` pointer) and the contents of the array after the call. -/
structure Collaborators (D C α : Type) where
  motorCount : D → Nat
  setMotors : D → List α → D
  update : D → ℚ → D
  getMotors : C → D → ℚ → List α → C × D × List α

/-- The fields of `FFlightManager`. `_motorvals` is the content of the heap array the
pointer designates, `_dynamics` the state of the object the pointer designates, `self`
the state of the concrete subclass. -/
structure FFlightManager (D C α : Type) where
  _motorvals : List α
  _previousTime : ℚ
  _running : Bool
  _nmotors : Nat
  _dynamics : D
  self : C

section Embedding

variable {D C α β : Type}

/-- `static const uint8_t MAX_MOTORS = 16;` -/
def FFlightManager.MAX_MOTORS : Nat := 16

/-- The constructor `FFlightManager(Dynamics * dynamics)` (a definition cannot carry the
name of its own structure). `_nmotors` is a `uint8_t`, so
the motor count is stored modulo 256. `new double[_nmotors]` default-initialises the
array: its cells keep whatever the allocated block held, given here by `heap`. -/
def FFlightManager.construct (env : Collaborators D C α) (dynamics : D) (self : C)
    (heap : Nat → α) : FFlightManager D C α :=
  let nmotors := env.motorCount dynamics % 256
  { _nmotors := nmotors
    _motorvals := (List.range nmotors).map heap
    _dynamics := dynamics
    _previousTime := 0
    _running := true
    self := self }

/-- `void performTask(double currentTime)`. -/
def FFlightManager.performTask (env : Collaborators D C α) (fm : FFlightManager D C α)
    (currentTime : ℚ) : FFlightManager D C α :=
  if !fm._running then fm
  else
    let dt := currentTime - fm._previousTime
    let d1 := env.setMotors fm._dynamics fm._motorvals
    let d2 := env.update d1 dt
    let r := env.getMotors fm.self d2 currentTime fm._motorvals
    { fm with self := r.1, _dynamics := r.2.1, _motorvals := r.2.2,
              _previousTime := currentTime }

/-- The loop `for (uint8_t j=0; j<_nmotors; ++j) motorvals[j] = _motorvals[j];` with
`n` iterations left, at index `j`. An access outside either array has no defined
result (`none`). -/
def FFlightManager.getMotorValuesLoop (narrow : α → β) (src : List α) :
    Nat → Nat → List β → Option (List β)
  | 0, _, motorvals => some motorvals
  | n + 1, j, motorvals =>
    match src[j]? with
    | none => none
    | some v =>
      if j < motorvals.length then
        FFlightManager.getMotorValuesLoop narrow src n (j + 1) (motorvals.set j (narrow v))
      else none

/-- `void getMotorValues(float * motorvals)`: returns the manager after the call and the
contents of the caller's array after the call. -/
def FFlightManager.getMotorValues (narrow : α → β) (fm : FFlightManager D C α)
    (motorvals : List β) : Option (FFlightManager D C α × List β) :=
  (FFlightManager.getMotorValuesLoop narrow fm._motorvals fm._nmotors 0 motorvals).map
    (fun out => (fm, out))

/-- `void stop(void)`. -/
def FFlightManager.stop (fm : FFlightManager D C α) : FFlightManager D C α :=
  { fm with _running := false }

/-- The worker thread's loop body applied to successive time stamps. -/
def FFlightManager.runTasks (env : Collaborators D C α) (fm : FFlightManager D C α)
    (times : List ℚ) : FFlightManager D C α :=
  times.foldl (FFlightManager.performTask env) fm

/-- An operation of the class that can be invoked after construction. -/
inductive Op (β : Type) where
  | performTask (currentTime : ℚ)
  | getMotorValues (motorvals : List β)
  | stop

/-- One operation applied to the manager. -/
def FFlightManager.step (env : Collaborators D C α) (narrow : α → β)
    (fm : FFlightManager D C α) : Op β → Option (FFlightManager D C α)
  | Op.performTask currentTime => some (fm.performTask env currentTime)
  | Op.getMotorValues motorvals => (fm.getMotorValues narrow motorvals).map Prod.fst
  | Op.stop => some fm.stop

/-- A sequence of operations applied in order. -/
def FFlightManager.steps (env : Collaborators D C α) (narrow : α → β) :
    FFlightManager D C α → List (Op β) → Option (FFlightManager D C α)
  | fm, [] => some fm
  | fm, op :: ops => (fm.step env narrow op).bind (fun fm' => FFlightManager.steps env narrow fm' ops)

/-- Collaborators that behave as `env` does and also record, in call order, every call
made on them. -/
def Collaborators.recording (env : Collaborators D C α) :
    Collaborators (D × List (Call α)) C α where
  motorCount := fun d => env.motorCount d.1
  setMotors := fun d motorvals =>
    (env.setMotors d.1 motorvals, d.2 ++ [Call.setMotors motorvals])
  update := fun d dt => (env.update d.1 dt, d.2 ++ [Call.update dt])
  getMotors := fun c d time motorvals =>
    let r := env.getMotors c d.1 time motorvals
    (r.1, (r.2.1, d.2 ++ [Call.getMotors time r.2.2]), r.2.2)

/-- The calls recorded so far by the collaborators of a manager that runs in front of
recording collaborators. -/
def FFlightManager.calls (fm : FFlightManager (D × List (Call α)) C α) : List (Call α) :=
  fm._dynamics.2

/-- The `dt` arguments of the recorded `update` calls, in order. -/
def updateArgs : List (Call α) → List ℚ
  | [] => []
  | Call.update dt :: cs => dt :: updateArgs cs
  | _ :: cs => updateArgs cs

/-- The strategy of the scenarios: always writes `vals`, touches nothing else. -/
def constantStrategy (n : Nat) (vals : List α) : Collaborators Unit Unit α where
  motorCount := fun _ => n
  setMotors := fun d _ => d
  update := fun d _ => d
  getMotors := fun c d _ _ => (c, d, vals)

/-- The strategy writes inside the array it is handed: given an array of `n` cells,
`getMotors` leaves an array of `n` cells (the subclass cannot reallocate the private
`_motorvals`). -/
def Collaborators.KeepsExtent (env : Collaborators D C α) (n : Nat) : Prop :=
  ∀ (c : C) (d : D) (time : ℚ) (motorvals : List α),
    motorvals.length = n → (env.getMotors c d time motorvals).2.2.length = n

/-! ### Reads interleaved with worker cycles

`performTask` runs on the worker thread and `getMotorValues` on the consumer's thread, and
the class shares `_motorvals` between them with no lock. The interleavings embedded here
are the coarsest ones: every `performTask` cycle is one indivisible step and so is every
iteration of the copy loop; cycles may run between two iterations. -/

end Embedding

/-! ## `Vehicle::agl` (`Source/MainModule/Vehicle.hpp`)

The `float` arithmetic of `agl` is embedded as exact rational arithmetic. The engine's
answers (the pawn's location and the result of the line trace) are parameters. -/

/-- The engine's `FVector`. -/
structure FVector where
  X : ℚ
  Y : ℚ
  Z : ℚ

/-- The fields of the engine's `FHitResult` that `getImpactDistance` reads. -/
structure FHitResult where
  bBlockingHit : Bool
  ImpactPoint : FVector

/-- What one call of `agl` obtains from the engine: `_pawn->GetActorLocation()` and
`_pawn->GetWorld()->LineTraceSingleByChannel(OutHit, startPoint, endPoint, ...)`, which
returns whether something was hit together with `OutHit`. -/
structure World where
  GetActorLocation : FVector
  LineTraceSingleByChannel : FVector → FVector → Bool × FHitResult

/-- The field of `Vehicle` that `agl` reads and writes. -/
structure Vehicle where
  _aglOffset : ℚ

/-- `static constexpr float INF = 1e9;` -/
def Vehicle.INF : ℚ := 1000000000

/-- `float getImpactDistance(FVector startPoint, FVector endPoint)`: the distance to the
mesh between the points, or `-1` if none is found. -/
def Vehicle.getImpactDistance (world : World) (startPoint endPoint : FVector) : ℚ :=
  let r := world.LineTraceSingleByChannel startPoint endPoint
  if r.1 then
    if r.2.bBlockingHit then (startPoint.Z - r.2.ImpactPoint.Z) / 100
    else -1
  else -1

/-- `float agl(void)`: returns the vehicle after the call and the returned value. -/
def Vehicle.agl (v : Vehicle) (world : World) : Vehicle × ℚ :=
  let location := world.GetActorLocation
  let startPoint : FVector := { X := location.X, Y := location.Y, Z := location.Z + 100 }
  let endPoint : FVector :=
    { X := startPoint.X, Y := startPoint.Y, Z := startPoint.Z - Vehicle.INF }
  let d := Vehicle.getImpactDistance world startPoint endPoint
  let v' : Vehicle := if v._aglOffset = 0 then { v with _aglOffset := d } else v
  (v', d - v'._aglOffset)

/-- A world in which the pawn is at `location` and the trace hits nothing. -/
def emptyWorld (location : FVector) : World where
  GetActorLocation := location
  LineTraceSingleByChannel := fun _ _ => (false, { bBlockingHit := false, ImpactPoint := location })


section Protocol

variable {D C α β : Type}

theorem FFlightManager.performTask_of_running (env : Collaborators D C α)
    (fm : FFlightManager D C α) (t : ℚ) (h : fm._running = true) :
    fm.performTask env t =
      { fm with
        self := (env.getMotors fm.self (env.update (env.setMotors fm._dynamics fm._motorvals)
          (t - fm._previousTime)) t fm._motorvals).1
        _dynamics := (env.getMotors fm.self (env.update (env.setMotors fm._dynamics
          fm._motorvals) (t - fm._previousTime)) t fm._motorvals).2.1
        _motorvals := (env.getMotors fm.self (env.update (env.setMotors fm._dynamics
          fm._motorvals) (t - fm._previousTime)) t fm._motorvals).2.2
        _previousTime := t } := by
  simp [FFlightManager.performTask, h]

theorem FFlightManager.performTask_of_stopped (env : Collaborators D C α)
    (fm : FFlightManager D C α) (t : ℚ) (h : fm._running = false) :
    fm.performTask env t = fm := by
  simp [FFlightManager.performTask, h]

theorem FFlightManager.performTask_running (env : Collaborators D C α)
    (fm : FFlightManager D C α) (t : ℚ) :
    (fm.performTask env t)._running = fm._running := by
  cases h : fm._running
  · rw [FFlightManager.performTask_of_stopped env fm t h, h]
  · rw [FFlightManager.performTask_of_running env fm t h]
    exact h

theorem FFlightManager.runTasks_cons (env : Collaborators D C α) (fm : FFlightManager D C α)
    (t : ℚ) (ts : List ℚ) :
    fm.runTasks env (t :: ts) = (fm.performTask env t).runTasks env ts := rfl

theorem FFlightManager.runTasks_append (env : Collaborators D C α)
    (fm : FFlightManager D C α) (ts us : List ℚ) :
    fm.runTasks env (ts ++ us) = (fm.runTasks env ts).runTasks env us := by
  simp [FFlightManager.runTasks]

theorem FFlightManager.runTasks_running (env : Collaborators D C α) (ts : List ℚ) :
    ∀ fm : FFlightManager D C α, (fm.runTasks env ts)._running = fm._running := by
  induction ts with
  | nil => intro fm; rfl
  | cons t ts ih =>
    intro fm
    rw [FFlightManager.runTasks_cons, ih, FFlightManager.performTask_running]

theorem FFlightManager.runTasks_of_stopped (env : Collaborators D C α) (ts : List ℚ) :
    ∀ fm : FFlightManager D C α, fm._running = false → fm.runTasks env ts = fm := by
  induction ts with
  | nil => intro fm _; rfl
  | cons t ts ih =>
    intro fm h
    rw [FFlightManager.runTasks_cons, FFlightManager.performTask_of_stopped env fm t h]
    exact ih fm h

/-- The calls one cycle of a running manager adds to the record. -/
theorem FFlightManager.calls_performTask (env : Collaborators D C α)
    (fm : FFlightManager (D × List (Call α)) C α) (t : ℚ) (h : fm._running = true) :
    (fm.performTask env.recording t).calls =
      fm.calls ++ [Call.setMotors fm._motorvals, Call.update (t - fm._previousTime),
        Call.getMotors t (fm.performTask env.recording t)._motorvals] := by
  simp [FFlightManager.performTask, h, FFlightManager.calls, Collaborators.recording]

/-- C2. Per-cycle protocol: one `performTask(t)` on a running manager with buffer `b` and
previous time `p` adds to the record exactly `setMotors(b)`, `update(t - p)` and
`getMotors(t)`, in that order and once each; the dynamics has gone through exactly these
three calls in that order; afterwards the buffer holds what the strategy left in it and
`_previousTime` is `t`. -/
theorem performTask_protocol (env : Collaborators D C α)
    (fm : FFlightManager (D × List (Call α)) C α) (t : ℚ) (h : fm._running = true) :
    (fm.performTask env.recording t).calls =
        fm.calls ++ [Call.setMotors fm._motorvals, Call.update (t - fm._previousTime),
          Call.getMotors t (env.getMotors fm.self (env.update (env.setMotors fm._dynamics.1
            fm._motorvals) (t - fm._previousTime)) t fm._motorvals).2.2] ∧
      (fm.performTask env.recording t)._dynamics.1 =
        (env.getMotors fm.self (env.update (env.setMotors fm._dynamics.1 fm._motorvals)
          (t - fm._previousTime)) t fm._motorvals).2.1 ∧
      (fm.performTask env.recording t)._motorvals =
        (env.getMotors fm.self (env.update (env.setMotors fm._dynamics.1 fm._motorvals)
          (t - fm._previousTime)) t fm._motorvals).2.2 ∧
      (fm.performTask env.recording t)._previousTime = t := by
  simp [FFlightManager.performTask, h, FFlightManager.calls, Collaborators.recording]

/-- Witness for C2: four motors, stored buffer `[0,0,0,0]`, previous time `0`, the
strategy that always writes `[1,1,1,1]`, one cycle at `t = 1/100`. -/
theorem performTask_protocol_witness :
    ((FFlightManager.mk [0, 0, 0, 0] 0 true 4 ((), []) () :
        FFlightManager (Unit × List (Call ℚ)) Unit ℚ).performTask
        (constantStrategy 4 [1, 1, 1, 1]).recording (1 / 100)).calls =
      [Call.setMotors [0, 0, 0, 0], Call.update (1 / 100),
        Call.getMotors (1 / 100) [1, 1, 1, 1]] := by
  have h := (performTask_protocol (constantStrategy 4 [(1 : ℚ), 1, 1, 1])
    (FFlightManager.mk [0, 0, 0, 0] 0 true 4 ((), []) ()) (1 / 100) rfl).1
  simpa [FFlightManager.calls, constantStrategy] using h

/-- C4. Stopped cycles are no-ops: after `stop()`, any number of further `performTask`
calls, at any time stamps, records no call on the collaborators and leaves the whole
manager, in particular the buffer and `_previousTime`, as `stop()` left it. -/
theorem stopped_cycles_are_noops (env : Collaborators D C α)
    (fm : FFlightManager (D × List (Call α)) C α) (ts : List ℚ) :
    (fm.stop.runTasks env.recording ts).calls = fm.calls ∧
      (fm.stop.runTasks env.recording ts)._motorvals = fm._motorvals ∧
      (fm.stop.runTasks env.recording ts)._previousTime = fm._previousTime ∧
      fm.stop.runTasks env.recording ts = fm.stop := by
  have h : fm.stop.runTasks env.recording ts = fm.stop :=
    FFlightManager.runTasks_of_stopped env.recording ts fm.stop rfl
  rw [h]
  exact ⟨rfl, rfl, rfl, rfl⟩

/-- C6. `stop()` is idempotent, is total, clears the running flag and changes no other
field: buffer, previous time, motor count, dynamics and subclass state are kept. -/
theorem stop_idempotent (fm : FFlightManager D C α) :
    fm.stop.stop = fm.stop ∧ fm.stop._running = false ∧
      fm.stop._motorvals = fm._motorvals ∧ fm.stop._previousTime = fm._previousTime ∧
      fm.stop._nmotors = fm._nmotors ∧ fm.stop._dynamics = fm._dynamics ∧
      fm.stop.self = fm.self :=
  ⟨rfl, rfl, rfl, rfl, rfl, rfl, rfl⟩

theorem FFlightManager.calls_runTasks_length (env : Collaborators D C α) (ts : List ℚ) :
    ∀ fm : FFlightManager (D × List (Call α)) C α, fm._running = true →
      (fm.runTasks env.recording ts).calls.length = fm.calls.length + 3 * ts.length := by
  induction ts with
  | nil => intro fm _; rfl
  | cons t ts ih =>
    intro fm h
    have h' : (fm.performTask env.recording t)._running = true := by
      rw [FFlightManager.performTask_running]; exact h
    rw [FFlightManager.runTasks_cons, ih _ h', FFlightManager.calls_performTask env fm t h]
    simp only [List.length_append, List.length_cons, List.length_nil]
    omega

theorem FFlightManager.calls_runTasks_prefix (env : Collaborators D C α) (ts : List ℚ) :
    ∀ fm : FFlightManager (D × List (Call α)) C α,
      ∃ rest, (fm.runTasks env.recording ts).calls = fm.calls ++ rest := by
  induction ts with
  | nil => intro fm; exact ⟨[], by simp [FFlightManager.runTasks]⟩
  | cons t ts ih =>
    intro fm
    obtain ⟨rest, hrest⟩ := ih (fm.performTask env.recording t)
    rw [FFlightManager.runTasks_cons, hrest]
    cases h : fm._running
    · rw [FFlightManager.performTask_of_stopped _ fm t h]
      exact ⟨rest, rfl⟩
    · rw [FFlightManager.calls_performTask env fm t h]
      exact ⟨[Call.setMotors fm._motorvals, Call.update (t - fm._previousTime),
        Call.getMotors t (fm.performTask env.recording t)._motorvals] ++ rest,
        by rw [List.append_assoc]⟩

theorem FFlightManager.runTasks_take_succ (env : Collaborators D C α)
    (fm : FFlightManager D C α) (ts : List ℚ) (k : Nat) (t : ℚ) (hk : ts[k]? = some t) :
    fm.runTasks env (ts.take (k + 1)) = (fm.runTasks env (ts.take k)).performTask env t := by
  rw [List.take_succ, hk, FFlightManager.runTasks_append]
  rfl

/-- The three calls of cycle `k` of a run: they sit at positions `3k`, `3k+1`, `3k+2`
after what was recorded before the run. -/
theorem FFlightManager.calls_of_cycle (env : Collaborators D C α)
    (fm : FFlightManager (D × List (Call α)) C α) (ts : List ℚ) (k : Nat) (t : ℚ)
    (h : fm._running = true) (hk : ts[k]? = some t) :
    (fm.runTasks env.recording ts).calls[fm.calls.length + 3 * k]? =
        some (Call.setMotors (fm.runTasks env.recording (ts.take k))._motorvals) ∧
      (fm.runTasks env.recording ts).calls[fm.calls.length + 3 * k + 1]? =
        some (Call.update (t - (fm.runTasks env.recording (ts.take k))._previousTime)) ∧
      (fm.runTasks env.recording ts).calls[fm.calls.length + 3 * k + 2]? =
        some (Call.getMotors t (fm.runTasks env.recording (ts.take (k + 1)))._motorvals) := by
  have hlt : k < ts.length := by
    rcases Nat.lt_or_ge k ts.length with h1 | h1
    · exact h1
    · rw [List.getElem?_eq_none h1] at hk; cases hk
  have hsplit : ts = ts.take (k + 1) ++ ts.drop (k + 1) := (List.take_append_drop _ _).symm
  have hrun : (fm.runTasks env.recording (ts.take k))._running = true := by
    rw [FFlightManager.runTasks_running]; exact h
  have hlen : (fm.runTasks env.recording (ts.take k)).calls.length =
      fm.calls.length + 3 * k := by
    rw [FFlightManager.calls_runTasks_length env _ fm h, List.length_take,
      Nat.min_eq_left (Nat.le_of_lt hlt)]
  obtain ⟨rest, hrest⟩ := FFlightManager.calls_runTasks_prefix env (ts.drop (k + 1))
    (fm.runTasks env.recording (ts.take (k + 1)))
  have hcalls : (fm.runTasks env.recording ts).calls =
      (fm.runTasks env.recording (ts.take k)).calls ++
        ([Call.setMotors (fm.runTasks env.recording (ts.take k))._motorvals,
          Call.update (t - (fm.runTasks env.recording (ts.take k))._previousTime),
          Call.getMotors t (fm.runTasks env.recording (ts.take (k + 1)))._motorvals]
          ++ rest) := by
    conv_lhs => rw [hsplit]
    rw [FFlightManager.runTasks_append, hrest,
      FFlightManager.runTasks_take_succ env.recording fm ts k t hk,
      FFlightManager.calls_performTask env _ t hrun, List.append_assoc]
  rw [hcalls, ← hlen]
  refine ⟨?_, ?_, ?_⟩
  · rw [List.getElem?_append_right (Nat.le_refl _)]; simp
  · rw [List.getElem?_append_right (Nat.le_add_right _ _)]; simp
  · rw [List.getElem?_append_right (Nat.le_add_right _ _)]; simp

/-- C1. Lag invariant: in a run of a running manager over any time stamps, in every cycle
`k = j + 1 ≥ 1` the values passed to `setMotors` are the values `v` that the strategy
left in the buffer in cycle `j` (recorded by that cycle's `getMotors`, the call just
before in the record); they are fixed by the first `k` cycles alone, and the strategy's
call of cycle `k` itself only comes two calls later. -/
theorem lag_invariant (env : Collaborators D C α)
    (fm : FFlightManager (D × List (Call α)) C α) (ts : List ℚ) (j : Nat)
    (h : fm._running = true) (hj : j + 1 < ts.length) :
    ∃ tprev tcur v w, ts[j]? = some tprev ∧ ts[j + 1]? = some tcur ∧
      v = (fm.runTasks env.recording (ts.take (j + 1)))._motorvals ∧
      (fm.runTasks env.recording ts).calls[fm.calls.length + 3 * j + 2]? =
        some (Call.getMotors tprev v) ∧
      (fm.runTasks env.recording ts).calls[fm.calls.length + 3 * (j + 1)]? =
        some (Call.setMotors v) ∧
      (fm.runTasks env.recording ts).calls[fm.calls.length + 3 * (j + 1) + 1]? =
        some (Call.update (tcur - tprev)) ∧
      (fm.runTasks env.recording ts).calls[fm.calls.length + 3 * (j + 1) + 2]? =
        some (Call.getMotors tcur w) := by
  have hj0 : j < ts.length := Nat.lt_of_succ_lt hj
  have h0 : ts[j]? = some ts[j] := List.getElem?_eq_getElem hj0
  have h1 : ts[j + 1]? = some ts[j + 1] := List.getElem?_eq_getElem hj
  obtain ⟨-, -, c2⟩ := FFlightManager.calls_of_cycle env fm ts j _ h h0
  obtain ⟨d0, d1, d2⟩ := FFlightManager.calls_of_cycle env fm ts (j + 1) _ h h1
  have hprev : (fm.runTasks env.recording (ts.take (j + 1)))._previousTime = ts[j] := by
    rw [FFlightManager.runTasks_take_succ env.recording fm ts j _ h0,
      FFlightManager.performTask_of_running]
    rw [FFlightManager.runTasks_running]; exact h
  rw [hprev] at d1
  exact ⟨ts[j], ts[j + 1], _, _, h0, h1, rfl, c2, d0, d1, d2⟩

/-- Witness for C1: four motors, the strategy that always writes `[1,1,1,1]`, cycles at
`t = 0` and `t = 1/100`: the fourth recorded call, the first of the second cycle, is
`setMotors([1,1,1,1])`. -/
theorem lag_invariant_witness :
    ((FFlightManager.construct (constantStrategy 4 [(1 : ℚ), 1, 1, 1]).recording ((), []) ()
        (fun _ => 0)).runTasks (constantStrategy 4 [(1 : ℚ), 1, 1, 1]).recording
        [0, 1 / 100]).calls[3]? = some (Call.setMotors [1, 1, 1, 1]) := by
  obtain ⟨tprev, tcur, v, w, -, -, hv, -, hset, -, -⟩ :=
    lag_invariant (constantStrategy 4 [(1 : ℚ), 1, 1, 1])
      (FFlightManager.construct (constantStrategy 4 [(1 : ℚ), 1, 1, 1]).recording ((), []) ()
        (fun _ => 0)) [0, 1 / 100] 0 rfl (by decide)
  have hv' : v = [1, 1, 1, 1] := by
    rw [hv]
    simp [FFlightManager.construct, FFlightManager.runTasks, FFlightManager.performTask,
      constantStrategy, Collaborators.recording]
  rw [hv'] at hset
  simpa [FFlightManager.construct, FFlightManager.calls, constantStrategy,
    Collaborators.recording] using hset

/-- C3. The first cycle at the failing input: four motors, an allocated block that holds
`7` in every cell, first `performTask` at `t = 0`. The first recorded call is
`setMotors([7,7,7,7])`, the block's old contents, not the zero vector. -/
theorem first_cycle_passes_allocated_contents :
    ((FFlightManager.construct (constantStrategy 4 [(1 : ℚ), 1, 1, 1]).recording ((), []) ()
        (fun _ => 7)).performTask (constantStrategy 4 [(1 : ℚ), 1, 1, 1]).recording
        0).calls[0]? = some (Call.setMotors [7, 7, 7, 7]) ∧
      Call.setMotors [(7 : ℚ), 7, 7, 7] ≠ Call.setMotors [0, 0, 0, 0] := by
  constructor
  · simp [FFlightManager.construct, FFlightManager.performTask, FFlightManager.calls,
      constantStrategy, Collaborators.recording, List.range, List.range.loop]
  · simp

theorem updateArgs_append (xs ys : List (Call α)) :
    updateArgs (xs ++ ys) = updateArgs xs ++ updateArgs ys := by
  induction xs with
  | nil => rfl
  | cons c cs ih => cases c <;> simp [updateArgs, ih]

theorem FFlightManager.updateArgs_runTasks (env : Collaborators D C α) (ts : List ℚ) :
    ∀ fm : FFlightManager (D × List (Call α)) C α, fm._running = true →
      ∃ new, (fm.runTasks env.recording ts).calls = fm.calls ++ new ∧
        updateArgs new = List.zipWith (fun t p => t - p) ts (fm._previousTime :: ts) := by
  induction ts with
  | nil => intro fm _; exact ⟨[], by simp [FFlightManager.runTasks], rfl⟩
  | cons t ts ih =>
    intro fm h
    have h' : (fm.performTask env.recording t)._running = true := by
      rw [FFlightManager.performTask_running]; exact h
    obtain ⟨new, hnew, hargs⟩ := ih _ h'
    have hp : (fm.performTask env.recording t)._previousTime = t := by
      rw [FFlightManager.performTask_of_running _ fm t h]
    refine ⟨[Call.setMotors fm._motorvals, Call.update (t - fm._previousTime),
      Call.getMotors t (fm.performTask env.recording t)._motorvals] ++ new, ?_, ?_⟩
    · rw [FFlightManager.runTasks_cons, hnew, FFlightManager.calls_performTask env fm t h,
        List.append_assoc]
    · rw [updateArgs_append, hargs, hp]
      simp [updateArgs]

theorem zipWith_sub_nonneg (ts : List ℚ) :
    ∀ p : ℚ, List.Chain (fun a b => a ≤ b) p ts →
      ∀ dt ∈ List.zipWith (fun t q => t - q) ts (p :: ts), 0 ≤ dt := by
  induction ts with
  | nil => intro p _ dt hdt; simp at hdt
  | cons t ts ih =>
    intro p hchain dt hdt
    rw [List.chain_cons] at hchain
    rw [List.zipWith_cons_cons, List.mem_cons] at hdt
    rcases hdt with rfl | hdt
    · exact sub_nonneg.mpr hchain.1
    · exact ih t hchain.2 dt hdt

/-- C5, as stated, fails: from a fresh manager the time stamps `[0, -1/2, 1]` make
`performTask` pass the `dt` sequence `[0, -1/2, 3/2]` to `update`, not `[0, 0, 1]`, and
one of these is negative. -/
theorem clock_regression_reaches_update :
    updateArgs ((FFlightManager.construct (constantStrategy 4 [(1 : ℚ), 1, 1, 1]).recording
        ((), []) () (fun _ => 0)).runTasks (constantStrategy 4 [(1 : ℚ), 1, 1, 1]).recording
        [0, -1 / 2, 1]).calls = [0, -1 / 2, 3 / 2] ∧
      ¬ ∀ dt ∈ updateArgs ((FFlightManager.construct
        (constantStrategy 4 [(1 : ℚ), 1, 1, 1]).recording ((), []) () (fun _ => 0)).runTasks
        (constantStrategy 4 [(1 : ℚ), 1, 1, 1]).recording [0, -1 / 2, 1]).calls, 0 ≤ dt := by
  have hargs : updateArgs ((FFlightManager.construct
      (constantStrategy 4 [(1 : ℚ), 1, 1, 1]).recording ((), []) () (fun _ => 0)).runTasks
      (constantStrategy 4 [(1 : ℚ), 1, 1, 1]).recording [0, -1 / 2, 1]).calls =
      [0, -1 / 2, 3 / 2] := by
    simp [FFlightManager.construct, FFlightManager.runTasks, FFlightManager.performTask,
      FFlightManager.calls, constantStrategy, Collaborators.recording, updateArgs]
    norm_num
  refine ⟨hargs, ?_⟩
  rw [hargs]
  intro hall
  have := hall (-1 / 2) (by simp)
  norm_num at this

/-- C5, amended. In a run of a running manager over any time stamps `t1, t2, ...` with
previous time `p`, the `dt` values passed to `update` are exactly the unclamped
differences `t1 - p, t2 - t1, ...`; when the time stamps never decrease
(`p ≤ t1 ≤ t2 ≤ ...`) every one of them is `≥ 0`. -/
theorem update_receives_time_differences (env : Collaborators D C α)
    (fm : FFlightManager (D × List (Call α)) C α) (ts : List ℚ) (h : fm._running = true) :
    ∃ new, (fm.runTasks env.recording ts).calls = fm.calls ++ new ∧
      updateArgs new = List.zipWith (fun t p => t - p) ts (fm._previousTime :: ts) ∧
      (List.Chain (fun a b => a ≤ b) fm._previousTime ts → ∀ dt ∈ updateArgs new, 0 ≤ dt) := by
  obtain ⟨new, hnew, hargs⟩ := FFlightManager.updateArgs_runTasks env ts fm h
  refine ⟨new, hnew, hargs, ?_⟩
  intro hchain
  rw [hargs]
  exact zipWith_sub_nonneg ts fm._previousTime hchain

/-- Witness for C5, amended: a fresh manager run over the non-decreasing time stamps
`[0, 1/100, 1]` passes the `dt` sequence `[0, 1/100, 99/100]`, all `≥ 0`. -/
theorem update_receives_time_differences_witness :
    ∃ new, ((FFlightManager.construct (constantStrategy 4 [(1 : ℚ), 1, 1, 1]).recording
        ((), []) () (fun _ => 0)).runTasks (constantStrategy 4 [(1 : ℚ), 1, 1, 1]).recording
        [0, 1 / 100, 1]).calls = new ∧
      updateArgs new = [0, 1 / 100, 99 / 100] ∧ ∀ dt ∈ updateArgs new, 0 ≤ dt := by
  obtain ⟨new, hnew, hargs, hpos⟩ :=
    update_receives_time_differences (constantStrategy 4 [(1 : ℚ), 1, 1, 1])
      (FFlightManager.construct (constantStrategy 4 [(1 : ℚ), 1, 1, 1]).recording ((), []) ()
        (fun _ => 0)) [0, 1 / 100, 1] rfl
  refine ⟨new, ?_, ?_, ?_⟩
  · simpa [FFlightManager.calls, FFlightManager.construct] using hnew
  · rw [hargs]
    simp [FFlightManager.construct]
    norm_num
  · apply hpos
    simp [FFlightManager.construct]
    norm_num

end Protocol

section Accessor

variable {D C α β : Type}

theorem FFlightManager.step_running (env : Collaborators D C α) (narrow : α → β)
    (fm fm' : FFlightManager D C α) (op : Op β) (hs : fm.step env narrow op = some fm')
    (h : fm._running = false) : fm'._running = false := by
  cases op with
  | performTask t =>
    simp only [FFlightManager.step, Option.some.injEq] at hs
    rw [← hs, FFlightManager.performTask_running]; exact h
  | getMotorValues d =>
    simp only [FFlightManager.step, FFlightManager.getMotorValues, Option.map_map,
      Option.map_eq_some'] at hs
    obtain ⟨out, -, hfm⟩ := hs
    rw [← hfm]; exact h
  | stop =>
    simp only [FFlightManager.step, Option.some.injEq] at hs
    rw [← hs]; rfl

/-- C7. The running flag is terminal: for every sequence of `performTask(t)`,
`getMotorValues` and `stop` calls, from a manager whose flag is false the flag is false in
the state the sequence reaches (so in every later state), and one more operation of any
of the three kinds leaves it false: none of them sets it to true. -/
theorem running_flag_terminal (env : Collaborators D C α) (narrow : α → β)
    (ops : List (Op β)) (fm fm' : FFlightManager D C α)
    (hs : FFlightManager.steps env narrow fm ops = some fm') (h : fm._running = false) :
    fm'._running = false ∧
      ∀ (op : Op β) (fm'' : FFlightManager D C α),
        fm'.step env narrow op = some fm'' → fm''._running = false := by
  have key : ∀ (ops : List (Op β)) (fm fm' : FFlightManager D C α),
      FFlightManager.steps env narrow fm ops = some fm' → fm._running = false →
      fm'._running = false := by
    intro ops
    induction ops with
    | nil =>
      intro fm fm' hs h
      simp only [FFlightManager.steps, Option.some.injEq] at hs
      rw [← hs]; exact h
    | cons op ops ih =>
      intro fm fm' hs h
      simp only [FFlightManager.steps, Option.bind_eq_some] at hs
      obtain ⟨mid, hmid, hrest⟩ := hs
      exact ih mid fm' hrest (FFlightManager.step_running env narrow fm mid op hmid h)
  have hfm' := key ops fm fm' hs h
  exact ⟨hfm', fun op fm'' hop => FFlightManager.step_running env narrow fm' fm'' op hop hfm'⟩

/-- Witness for C7: a stopped manager with buffer `[1,1,1,1]` taken through
`performTask(1)`, `getMotorValues`, `stop()`, `performTask(2)`. -/
theorem running_flag_terminal_witness :
    FFlightManager.steps (constantStrategy 4 [(1 : ℚ), 1, 1, 1]) id
        (FFlightManager.mk [1, 1, 1, 1] 0 false 4 () ())
        [Op.performTask 1, Op.getMotorValues [0, 0, 0, 0], Op.stop, Op.performTask 2] =
        some (FFlightManager.mk [1, 1, 1, 1] 0 false 4 () ()) ∧
      (FFlightManager.mk [(1 : ℚ), 1, 1, 1] 0 false 4 () ())._running = false ∧
      ∀ (op : Op ℚ) (fm'' : FFlightManager Unit Unit ℚ),
        (FFlightManager.mk [(1 : ℚ), 1, 1, 1] 0 false 4 () ()).step
          (constantStrategy 4 [(1 : ℚ), 1, 1, 1]) id op = some fm'' →
        fm''._running = false :=
  ⟨rfl, running_flag_terminal (constantStrategy 4 [(1 : ℚ), 1, 1, 1]) id
    [Op.performTask 1, Op.getMotorValues [0, 0, 0, 0], Op.stop, Op.performTask 2]
    (FFlightManager.mk [1, 1, 1, 1] 0 false 4 () ())
    (FFlightManager.mk [1, 1, 1, 1] 0 false 4 () ()) rfl rfl⟩

/-- What the copy loop does when both arrays are long enough: it succeeds, keeps the
destination's length, overwrites the cells `j ≤ i < j + n` with the converted source
cells and keeps every other cell. -/
theorem FFlightManager.getMotorValuesLoop_spec (narrow : α → β) (src : List α) :
    ∀ (n j : Nat) (dest : List β), j + n ≤ src.length → j + n ≤ dest.length →
      ∃ out, FFlightManager.getMotorValuesLoop narrow src n j dest = some out ∧
        out.length = dest.length ∧
        ∀ i, out[i]? = if j ≤ i ∧ i < j + n then src[i]?.map narrow else dest[i]? := by
  intro n
  induction n with
  | zero =>
    intro j dest _ _
    refine ⟨dest, rfl, rfl, fun i => ?_⟩
    rw [if_neg]; omega
  | succ n ih =>
    intro j dest hsrc hdest
    have hj : j < src.length := by omega
    have hjd : j < dest.length := by omega
    obtain ⟨out, hout, hlen, hget⟩ := ih (j + 1) (dest.set j (narrow src[j]))
      (by omega) (by rw [List.length_set]; omega)
    refine ⟨out, ?_, ?_, fun i => ?_⟩
    · simp only [FFlightManager.getMotorValuesLoop, List.getElem?_eq_getElem hj, if_pos hjd]
      exact hout
    · rw [hlen, List.length_set]
    · rw [hget i]
      by_cases hi : j + 1 ≤ i ∧ i < j + 1 + n
      · rw [if_pos hi, if_pos (by omega)]
      · rw [if_neg hi]
        by_cases hij : i = j
        · subst hij
          rw [if_pos (by omega), List.getElem?_set_self hjd, List.getElem?_eq_getElem hj]
          rfl
        · rw [if_neg (by omega), List.getElem?_set_ne (Ne.symm hij)]

/-- C8. Read accessor: for a manager with motor count `N` whose buffer `b` has `N` cells
and a destination `d` with at least `N` cells, `getMotorValues(d)` succeeds, sets `d[j]`
to (the `float` conversion of) `b[j]` for every `j < N`, keeps `d[j]` for every `j ≥ N`
and the length of `d`, returns the manager unchanged (buffer, previous time, running
flag) and records no call on the collaborators, whatever the running flag is. -/
theorem getMotorValues_copies (narrow : α → β)
    (fm : FFlightManager (D × List (Call α)) C α) (d : List β)
    (hb : fm._motorvals.length = fm._nmotors) (hd : fm._nmotors ≤ d.length) :
    ∃ fm' d', fm.getMotorValues narrow d = some (fm', d') ∧
      fm' = fm ∧ fm'.calls = fm.calls ∧ d'.length = d.length ∧
      (∀ j, j < fm._nmotors → d'[j]? = fm._motorvals[j]?.map narrow) ∧
      (∀ j, fm._nmotors ≤ j → d'[j]? = d[j]?) := by
  obtain ⟨out, hout, hlen, hget⟩ :=
    FFlightManager.getMotorValuesLoop_spec narrow fm._motorvals fm._nmotors 0 d
      (by omega) (by omega)
  refine ⟨fm, out, ?_, rfl, rfl, hlen, fun j hj => ?_, fun j hj => ?_⟩
  · simp [FFlightManager.getMotorValues, hout]
  · rw [hget j, if_pos (by omega)]
  · rw [hget j, if_neg (by omega)]

/-- Witness for C8: a stopped four-motor manager with buffer `[1,2,3,4]` read into a
destination of six cells holding `9`. -/
theorem getMotorValues_copies_witness :
    ∃ fm' d', (FFlightManager.mk [(1 : ℚ), 2, 3, 4] 5 false 4 ((), []) () :
        FFlightManager (Unit × List (Call ℚ)) Unit ℚ).getMotorValues id
        [(9 : ℚ), 9, 9, 9, 9, 9] = some (fm', d') ∧
      fm' = FFlightManager.mk [(1 : ℚ), 2, 3, 4] 5 false 4 ((), []) () ∧
      fm'.calls = [] ∧ d'.length = 6 ∧
      (∀ j, j < 4 → d'[j]? = ([(1 : ℚ), 2, 3, 4][j]?).map id) ∧
      (∀ j, 4 ≤ j → d'[j]? = [(9 : ℚ), 9, 9, 9, 9, 9][j]?) :=
  getMotorValues_copies id (FFlightManager.mk [(1 : ℚ), 2, 3, 4] 5 false 4 ((), []) ())
    [(9 : ℚ), 9, 9, 9, 9, 9] rfl (by decide)

theorem FFlightManager.step_extent (env : Collaborators D C α) (narrow : α → β) (n : Nat)
    (hext : env.KeepsExtent n) (fm fm' : FFlightManager D C α) (op : Op β)
    (hs : fm.step env narrow op = some fm') (hlen : fm._motorvals.length = n) :
    fm'._motorvals.length = n ∧ fm'._nmotors = fm._nmotors := by
  cases op with
  | performTask t =>
    simp only [FFlightManager.step, Option.some.injEq] at hs
    rw [← hs]
    cases h : fm._running
    · rw [FFlightManager.performTask_of_stopped env fm t h]
      exact ⟨hlen, rfl⟩
    · rw [FFlightManager.performTask_of_running env fm t h]
      exact ⟨hext _ _ _ _ hlen, rfl⟩
  | getMotorValues d =>
    simp only [FFlightManager.step, FFlightManager.getMotorValues, Option.map_map,
      Option.map_eq_some'] at hs
    obtain ⟨out, -, hfm⟩ := hs
    rw [← hfm]; exact ⟨hlen, rfl⟩
  | stop =>
    simp only [FFlightManager.step, Option.some.injEq] at hs
    rw [← hs]; exact ⟨hlen, rfl⟩

theorem FFlightManager.steps_extent (env : Collaborators D C α) (narrow : α → β) (n : Nat)
    (hext : env.KeepsExtent n) (ops : List (Op β)) :
    ∀ fm fm' : FFlightManager D C α, FFlightManager.steps env narrow fm ops = some fm' →
      fm._motorvals.length = n → fm'._motorvals.length = n ∧ fm'._nmotors = fm._nmotors := by
  induction ops with
  | nil =>
    intro fm fm' hs hlen
    simp only [FFlightManager.steps, Option.some.injEq] at hs
    rw [← hs]; exact ⟨hlen, rfl⟩
  | cons op ops ih =>
    intro fm fm' hs hlen
    simp only [FFlightManager.steps, Option.bind_eq_some] at hs
    obtain ⟨mid, hmid, hrest⟩ := hs
    obtain ⟨h1, h2⟩ := FFlightManager.step_extent env narrow n hext fm mid op hmid hlen
    obtain ⟨h3, h4⟩ := ih mid fm' hrest h1
    exact ⟨h3, h4.trans h2⟩

/-- C9, as stated, fails: for a dynamics model with `motorCount() = 17` the constructor
builds a buffer of 17 cells, more than `MAX_MOTORS`, and `getMotorValues` on a destination
of `MAX_MOTORS` cells runs past its last cell. -/
theorem buffer_can_exceed_MAX_MOTORS :
    (FFlightManager.construct (constantStrategy 17 [(1 : ℚ)]) () () (fun _ => 0))._motorvals.length
        = 17 ∧
      ¬ (FFlightManager.construct (constantStrategy 17 [(1 : ℚ)]) () ()
        (fun _ => 0))._motorvals.length ≤ FFlightManager.MAX_MOTORS ∧
      (FFlightManager.construct (constantStrategy 17 [(1 : ℚ)]) () ()
        (fun _ => 0)).getMotorValues id (List.replicate FFlightManager.MAX_MOTORS (0 : ℚ)) =
        none := by
  refine ⟨rfl, by decide, rfl⟩

/-- C9, amended. For every dynamics model with `motorCount() ≤ MAX_MOTORS` and every
strategy that writes inside the array it is handed, the constructor builds a buffer of
`N = motorCount()` cells, and after any sequence of `performTask`, `getMotorValues` and
`stop` calls the motor count and the buffer length are still `N`, so `getMotorValues` on a
destination of `MAX_MOTORS` cells succeeds, writes no cell at or past index `N` and keeps
the destination's `MAX_MOTORS` cells. -/
theorem buffer_length_fixed (env : Collaborators D C α) (narrow : α → β) (dynamics : D)
    (self : C) (heap : Nat → α) (ops : List (Op β)) (fm' : FFlightManager D C α)
    (hN : env.motorCount dynamics ≤ FFlightManager.MAX_MOTORS)
    (hext : env.KeepsExtent (env.motorCount dynamics))
    (hs : FFlightManager.steps env narrow (FFlightManager.construct env dynamics self heap)
      ops = some fm') :
    (FFlightManager.construct env dynamics self heap)._motorvals.length =
        env.motorCount dynamics ∧
      fm'._nmotors = env.motorCount dynamics ∧
      fm'._motorvals.length = env.motorCount dynamics ∧
      ∀ dest : List β, dest.length = FFlightManager.MAX_MOTORS →
        ∃ out, fm'.getMotorValues narrow dest = some (fm', out) ∧
          out.length = FFlightManager.MAX_MOTORS ∧
          ∀ j, env.motorCount dynamics ≤ j → out[j]? = dest[j]? := by
  have hmod : env.motorCount dynamics % 256 = env.motorCount dynamics :=
    Nat.mod_eq_of_lt (by unfold FFlightManager.MAX_MOTORS at hN; omega)
  have h0 : (FFlightManager.construct env dynamics self heap)._motorvals.length =
      env.motorCount dynamics := by
    simp [FFlightManager.construct, hmod]
  have hn0 : (FFlightManager.construct env dynamics self heap)._nmotors =
      env.motorCount dynamics := by
    simp [FFlightManager.construct, hmod]
  obtain ⟨h1, h2⟩ := FFlightManager.steps_extent env narrow _ hext ops _ fm' hs h0
  rw [hn0] at h2
  refine ⟨h0, h2, h1, fun dest hdest => ?_⟩
  obtain ⟨out, hout, hlen, hget⟩ :=
    FFlightManager.getMotorValuesLoop_spec narrow fm'._motorvals fm'._nmotors 0 dest
      (by omega) (by omega)
  refine ⟨out, ?_, by rw [hlen, hdest], fun j hj => ?_⟩
  · simp [FFlightManager.getMotorValues, hout]
  · rw [hget j, if_neg (by omega)]

/-- Witness for C9, amended: four motors, the strategy that always writes `[1,1,1,1]`,
and the operations `performTask(1)`, `stop()`, `performTask(2)`. -/
theorem buffer_length_fixed_witness :
    (FFlightManager.construct (constantStrategy 4 [(1 : ℚ), 1, 1, 1]) () ()
        (fun _ => 0))._motorvals.length = 4 ∧
      (FFlightManager.mk [(1 : ℚ), 1, 1, 1] 1 false 4 () ())._nmotors = 4 ∧
      (FFlightManager.mk [(1 : ℚ), 1, 1, 1] 1 false 4 () ())._motorvals.length = 4 ∧
      ∀ dest : List ℚ, dest.length = FFlightManager.MAX_MOTORS →
        ∃ out, (FFlightManager.mk [(1 : ℚ), 1, 1, 1] 1 false 4 () ()).getMotorValues id dest =
            some (FFlightManager.mk [(1 : ℚ), 1, 1, 1] 1 false 4 () (), out) ∧
          out.length = FFlightManager.MAX_MOTORS ∧ ∀ j, 4 ≤ j → out[j]? = dest[j]? :=
  buffer_length_fixed (constantStrategy 4 [(1 : ℚ), 1, 1, 1]) id () () (fun _ => 0)
    [Op.performTask 1, Op.stop, Op.performTask 2]
    (FFlightManager.mk [(1 : ℚ), 1, 1, 1] 1 false 4 () ()) (by decide)
    (fun _ _ _ _ _ => rfl)
    (by simp [FFlightManager.steps, FFlightManager.step, FFlightManager.construct,
      FFlightManager.performTask, FFlightManager.stop, constantStrategy, List.range,
      List.range.loop])

end Accessor

section ElapsedTime

variable {D C α : Type}

/-- The successive differences of a sequence of time stamps, starting from `p`, add up
to the last time stamp minus `p`. -/
theorem zipWith_sub_sum (ts : List ℚ) :
    ∀ p : ℚ, (List.zipWith (fun t q => t - q) ts (p :: ts)).sum = ts.getLast?.getD p - p := by
  induction ts with
  | nil => intro p; simp
  | cons t ts ih =>
    intro p
    rw [List.zipWith_cons_cons, List.sum_cons, ih t, List.getLast?_cons, Option.getD_some]
    ring

/-- C11. Elapsed time telescopes from zero: a freshly constructed manager (whose
`_previousTime` is `0`) run over any non-empty sequence of time stamps `t1, ..., tn` passes
to `update` values of `dt` whose sum, in exact arithmetic, is `tn`, whatever the time
stamps in between are; the first of them is `t1` itself. -/
theorem elapsed_time_telescopes (env : Collaborators D C α) (dynamics : D)
    (log : List (Call α)) (self : C) (heap : Nat → α) (ts : List ℚ) (t1 tn : ℚ)
    (hfirst : ts.head? = some t1) (hlast : ts.getLast? = some tn) :
    ∃ new, ((FFlightManager.construct env.recording (dynamics, log) self heap).runTasks
        env.recording ts).calls = log ++ new ∧
      (updateArgs new).sum = tn ∧ (updateArgs new).head? = some t1 := by
  obtain ⟨new, hnew, hargs⟩ := FFlightManager.updateArgs_runTasks env ts
    (FFlightManager.construct env.recording (dynamics, log) self heap) rfl
  refine ⟨new, hnew, ?_, ?_⟩
  · rw [hargs, zipWith_sub_sum, hlast]
    simp [FFlightManager.construct]
  · rw [hargs]
    cases ts with
    | nil => simp at hfirst
    | cons t ts =>
      simp only [List.head?_cons, Option.some.injEq] at hfirst
      simp [FFlightManager.construct, hfirst]

/-- Witness for C11: four motors, the strategy that always writes `[1,1,1,1]`, cycles at
`t = 1/2, 1/4, 3`: the `dt` values sum to `3` and the first is `1/2`. -/
theorem elapsed_time_telescopes_witness :
    ∃ new, ((FFlightManager.construct (constantStrategy 4 [(1 : ℚ), 1, 1, 1]).recording
        ((), []) () (fun _ => 0)).runTasks (constantStrategy 4 [(1 : ℚ), 1, 1, 1]).recording
        [1 / 2, 1 / 4, 3]).calls = [] ++ new ∧
      (updateArgs new).sum = 3 ∧ (updateArgs new).head? = some (1 / 2) :=
  elapsed_time_telescopes (constantStrategy 4 [(1 : ℚ), 1, 1, 1]) () [] () (fun _ => 0)
    [1 / 2, 1 / 4, 3] (1 / 2) 3 rfl rfl

end ElapsedTime

section Agl

/-- The offset `agl` leaves and the value it returns, in terms of the impact distance. -/
theorem Vehicle.agl_eq (v : Vehicle) (world : World) :
    (v.agl world).1._aglOffset =
        (if v._aglOffset = 0 then
          Vehicle.getImpactDistance world
            { X := world.GetActorLocation.X, Y := world.GetActorLocation.Y,
              Z := world.GetActorLocation.Z + 100 }
            { X := world.GetActorLocation.X, Y := world.GetActorLocation.Y,
              Z := world.GetActorLocation.Z + 100 - Vehicle.INF }
         else v._aglOffset) ∧
      (v.agl world).2 =
        Vehicle.getImpactDistance world
            { X := world.GetActorLocation.X, Y := world.GetActorLocation.Y,
              Z := world.GetActorLocation.Z + 100 }
            { X := world.GetActorLocation.X, Y := world.GetActorLocation.Y,
              Z := world.GetActorLocation.Z + 100 - Vehicle.INF } -
          (v.agl world).1._aglOffset := by
  constructor
  · unfold Vehicle.agl
    by_cases h : v._aglOffset = 0 <;> simp [h]
  · rfl

/-- Once `_aglOffset` is not `0`, `agl` leaves the vehicle as it is. -/
theorem Vehicle.agl_keeps_nonzero_offset (v : Vehicle) (world : World)
    (h : v._aglOffset ≠ 0) : (v.agl world).1 = v := by
  simp [Vehicle.agl, h]

/-- C12. The first `agl()` call at the failing input: `_aglOffset` has been reset to `0`
and the trace below the vehicle hits nothing, so `getImpactDistance` returns `-1`. The
call sets `_aglOffset` to `-1`, which is not positive, and returns `0`. -/
theorem agl_offset_not_positive_without_hit :
    Vehicle.getImpactDistance (emptyWorld { X := 0, Y := 0, Z := 50 })
        { X := 0, Y := 0, Z := 150 } { X := 0, Y := 0, Z := 150 - Vehicle.INF } = -1 ∧
      ((Vehicle.mk 0).agl (emptyWorld { X := 0, Y := 0, Z := 50 })).1._aglOffset = -1 ∧
      ¬ 0 < ((Vehicle.mk 0).agl (emptyWorld { X := 0, Y := 0, Z := 50 })).1._aglOffset ∧
      ((Vehicle.mk 0).agl (emptyWorld { X := 0, Y := 0, Z := 50 })).2 = 0 := by
  have hd : Vehicle.getImpactDistance (emptyWorld { X := 0, Y := 0, Z := 50 })
      { X := 0, Y := 0, Z := 150 } { X := 0, Y := 0, Z := 150 - Vehicle.INF } = -1 := by
    simp [Vehicle.getImpactDistance, emptyWorld]
  have ho : ((Vehicle.mk 0).agl (emptyWorld { X := 0, Y := 0, Z := 50 })).1._aglOffset
      = -1 := by
    simp [Vehicle.agl, Vehicle.getImpactDistance, emptyWorld]
  refine ⟨hd, ho, ?_, ?_⟩
  · rw [ho]; norm_num
  · simp [Vehicle.agl, Vehicle.getImpactDistance, emptyWorld]

end Agl

section Interleaving

variable {D C α β : Type}

end Interleaving
